import Mathlib

/-!
Verification of `tools/embedsrv.py`: the binary-to-text embedding pipeline
(`bin2python`), the provenance resolver (`get_git_info`), and the document
generator (`generate_python_script`).

Bytes are modelled as `List Nat` with values below 256.  Python standard
library calls are embedded as follows:

* `binascii.b2a_base64(data, newline=False)` is standard base-64 with
  padding and no trailing newline; it is implemented concretely below.
* `hashlib.md5` is implemented concretely below (full MD5, 32-bit words as
  `Nat` reduced modulo `2 ^ 32`).
* `bz2.compress` / `bz2.decompress` are modelled by a deterministic
  lossless byte-stream codec (run-length payload behind the fixed 4-byte
  container magic `BZh9`); like real bz2 it is lossless, deterministic, and
  produces non-empty output even on empty input (every bz2 stream starts
  with its magic header).
-/

/-- Splits a byte list on every occurrence of the byte `b`; the separators
are dropped.  `splitOnByte b []` is `[[]]`, matching Python's
`b"".split(b)`-style behaviour of always returning at least one field. -/
def splitOnByte (b : Nat) : List Nat → List (List Nat)
  | [] => [[]]
  | x :: xs =>
    if x = b then [] :: splitOnByte b xs
    else
      match splitOnByte b xs with
      | [] => [[x]]
      | y :: ys => (x :: y) :: ys

/-- One generated line of the framed body: `prefix + b'b"' + segment + b'"'`
(bytes 98 = `b`, 34 = `"`), from line 50 of `embedsrv.py`. -/
def mkLine (pfx seg : List Nat) : List Nat :=
  pfx ++ [98, 34] ++ seg ++ [34]

/-- Joins the produced lines with the separator, mirroring the accumulation
loop of `bin2python`: `sep` is appended only when the accumulator is already
non-empty, so the lines end up separated by single copies of `sep` with no
trailing separator. -/
def joinLines (sep : List Nat) : List (List Nat) → List Nat
  | [] => []
  | [l] => l
  | l :: l2 :: ls => l ++ sep ++ joinLines sep (l2 :: ls)

/-- Fuel-indexed slicing of `l` into consecutive `columns`-wide segments;
models the `while offset < len(data_b64)` loop of `bin2python`, which
advances `offset` by `columns` each iteration (the loop terminates exactly
when `columns > 0`, and `fuel = l.length` iterations then always suffice). -/
def chunksF (columns : Nat) : Nat → List Nat → List (List Nat)
  | _, [] => []
  | 0, _ :: _ => []
  | fuel + 1, x :: xs =>
    (x :: xs).take columns :: chunksF columns fuel ((x :: xs).drop columns)

/-- The segment list carved out of `l` by the slicing loop of `bin2python`. -/
def chunkSegs (columns : Nat) (l : List Nat) : List (List Nat) :=
  chunksF columns l.length l

/-- The base-64 alphabet `A-Z a-z 0-9 + /` as ASCII byte values. -/
def b64table : List Nat :=
  [65, 66, 67, 68, 69, 70, 71, 72, 73, 74, 75, 76, 77, 78, 79, 80,
   81, 82, 83, 84, 85, 86, 87, 88, 89, 90,
   97, 98, 99, 100, 101, 102, 103, 104, 105, 106, 107, 108, 109, 110,
   111, 112, 113, 114, 115, 116, 117, 118, 119, 120, 121, 122,
   48, 49, 50, 51, 52, 53, 54, 55, 56, 57, 43, 47]

/-- The alphabet byte for a six-bit group. -/
def sextetByte (n : Nat) : Nat := b64table.getD n 65

/-- `binascii.b2a_base64(·, newline=False)`: standard base-64 of a byte
list, `=`-padded (byte 61), no line breaks. -/
def b2a_base64 : List Nat → List Nat
  | [] => []
  | [a] => [sextetByte (a / 4), sextetByte (a % 4 * 16), 61, 61]
  | [a, b] =>
    [sextetByte (a / 4), sextetByte (a % 4 * 16 + b / 16),
     sextetByte (b % 16 * 4), 61]
  | a :: b :: c :: rest =>
    sextetByte (a / 4) :: sextetByte (a % 4 * 16 + b / 16) ::
      sextetByte (b % 16 * 4 + c / 64) :: sextetByte (c % 64) ::
      b2a_base64 rest

/-- Index of an alphabet byte, used by the base-64 decoder. -/
def sextetVal (b : Nat) : Nat := b64table.indexOf b

/-- Base-64 decoding of a padded base-64 byte string (the inverse used to
state the round-trip property). -/
def a2b_base64 : List Nat → List Nat
  | s0 :: s1 :: s2 :: s3 :: rest =>
    if s2 = 61 then [sextetVal s0 * 4 + sextetVal s1 / 16]
    else if s3 = 61 then
      [sextetVal s0 * 4 + sextetVal s1 / 16,
       sextetVal s1 % 16 * 16 + sextetVal s2 / 4]
    else
      (sextetVal s0 * 4 + sextetVal s1 / 16) ::
        (sextetVal s1 % 16 * 16 + sextetVal s2 / 4) ::
        (sextetVal s2 % 4 * 64 + sextetVal s3) :: a2b_base64 rest
  | _ => []

/-- The fixed 4-byte container magic `BZh9` that every stream produced by
`bz2.compress(·, compresslevel=9)` starts with. -/
def bz2Header : List Nat := [66, 90, 104, 57]

/-- Run-length emitter: counts runs of equal bytes (capped at 255 so counts
stay bytes) and emits `count, value` pairs. -/
def rleGo : Nat → Nat → List Nat → List Nat
  | cnt, cur, [] => [cnt, cur]
  | cnt, cur, x :: xs =>
    if x = cur ∧ cnt < 255 then rleGo (cnt + 1) cur xs
    else cnt :: cur :: rleGo 1 x xs

/-- Run-length payload of a byte list. -/
def rlePayload : List Nat → List Nat
  | [] => []
  | x :: xs => rleGo 1 x xs

/-- Model of `bz2.compress(·, compresslevel=9)`: deterministic lossless
byte-stream compression; output always begins with the container magic and
is therefore non-empty even for empty input, as with real bz2. -/
def bz2_compress (data : List Nat) : List Nat :=
  bz2Header ++ rlePayload data

/-- Expands a run-length payload. -/
def rleExpand : List Nat → List Nat
  | n :: b :: rest => List.replicate n b ++ rleExpand rest
  | _ => []

/-- Model of `bz2.decompress`: drops the container magic and expands. -/
def bz2_decompress (data : List Nat) : List Nat :=
  rleExpand (data.drop 4)

/-- 2 ^ 32, the word modulus of MD5 arithmetic. -/
def w32 : Nat := 4294967296

/-- Bitwise AND over `k` low bits, by structural recursion (kernel-reducible
without `Nat.bitwise`). -/
def bitAndF : Nat → Nat → Nat → Nat
  | 0, _, _ => 0
  | k + 1, x, y => bitAndF k (x / 2) (y / 2) * 2 + min (x % 2) (y % 2)

/-- Bitwise OR over `k` low bits. -/
def bitOrF : Nat → Nat → Nat → Nat
  | 0, _, _ => 0
  | k + 1, x, y => bitOrF k (x / 2) (y / 2) * 2 + max (x % 2) (y % 2)

/-- Bitwise XOR over `k` low bits. -/
def bitXorF : Nat → Nat → Nat → Nat
  | 0, _, _ => 0
  | k + 1, x, y => bitXorF k (x / 2) (y / 2) * 2 + (x % 2 + y % 2) % 2

/-- 32-bit AND. -/
def land32 (x y : Nat) : Nat := bitAndF 32 x y

/-- 32-bit OR. -/
def lor32 (x y : Nat) : Nat := bitOrF 32 x y

/-- 32-bit XOR. -/
def lxor32 (x y : Nat) : Nat := bitXorF 32 x y

/-- 32-bit complement. -/
def lnot32 (x : Nat) : Nat := w32 - 1 - x % w32

/-- 32-bit wrapping addition. -/
def add32 (x y : Nat) : Nat := (x + y) % w32

/-- 32-bit left rotation (the two shifted parts occupy disjoint bit ranges,
so their sum is their OR). -/
def rotl32 (x s : Nat) : Nat :=
  x % w32 * 2 ^ s % w32 + x % w32 / 2 ^ (32 - s)

/-- MD5 round function F. -/
def md5F (b c d : Nat) : Nat := lor32 (land32 b c) (land32 (lnot32 b) d)

/-- MD5 round function G. -/
def md5G (b c d : Nat) : Nat := lor32 (land32 d b) (land32 (lnot32 d) c)

/-- MD5 round function H. -/
def md5H (b c d : Nat) : Nat := lxor32 b (lxor32 c d)

/-- MD5 round function I. -/
def md5I (b c d : Nat) : Nat := lxor32 c (lor32 b (lnot32 d))

/-- The 64 MD5 sine-derived constants. -/
def md5K : List Nat :=
  [3614090360, 3905402710, 606105819, 3250441966, 4118548399, 1200080426,
   2821735955, 4249261313, 1770035416, 2336552879, 4294925233, 2304563134,
   1804603682, 4254626195, 2792965006, 1236535329, 4129170786, 3225465664,
   643717713, 3921069994, 3593408605, 38016083, 3634488961, 3889429448,
   568446438, 3275163606, 4107603335, 1163531501, 2850285829, 4243563512,
   1735328473, 2368359562, 4294588738, 2272392833, 1839030562, 4259657740,
   2763975236, 1272893353, 4139469664, 3200236656, 681279174, 3936430074,
   3572445317, 76029189, 3654602809, 3873151461, 530742520, 3299628645,
   4096336452, 1126891415, 2878612391, 4237533241, 1700485571, 2399980690,
   4293915773, 2240044497, 1873313359, 4264355552, 2734768916, 1309151649,
   4149444226, 3174756917, 718787259, 3951481745]

/-- The 64 MD5 per-round left-rotation amounts. -/
def md5S : List Nat :=
  [7, 12, 17, 22, 7, 12, 17, 22, 7, 12, 17, 22, 7, 12, 17, 22,
   5, 9, 14, 20, 5, 9, 14, 20, 5, 9, 14, 20, 5, 9, 14, 20,
   4, 11, 16, 23, 4, 11, 16, 23, 4, 11, 16, 23, 4, 11, 16, 23,
   6, 10, 15, 21, 6, 10, 15, 21, 6, 10, 15, 21, 6, 10, 15, 21]

/-- Word `j` of a 64-byte block, little-endian. -/
def leWord (bs : List Nat) (j : Nat) : Nat :=
  bs.getD (4 * j) 0 + 256 * bs.getD (4 * j + 1) 0 +
    65536 * bs.getD (4 * j + 2) 0 + 16777216 * bs.getD (4 * j + 3) 0

/-- One MD5 round: state `(a, b, c, d)`, round index `i`. -/
def md5Round (block : List Nat) (st : Nat × Nat × Nat × Nat) (i : Nat) :
    Nat × Nat × Nat × Nat :=
  let a := st.1
  let b := st.2.1
  let c := st.2.2.1
  let d := st.2.2.2
  let f :=
    if i < 16 then md5F b c d
    else if i < 32 then md5G b c d
    else if i < 48 then md5H b c d
    else md5I b c d
  let g :=
    if i < 16 then i
    else if i < 32 then (5 * i + 1) % 16
    else if i < 48 then (3 * i + 5) % 16
    else 7 * i % 16
  let sum := add32 a (add32 f (add32 (md5K.getD i 0) (leWord block g)))
  (d, add32 b (rotl32 sum (md5S.getD i 0)), b, c)

/-- Processes one 64-byte block of the padded message. -/
def md5Block (st : Nat × Nat × Nat × Nat) (block : List Nat) :
    Nat × Nat × Nat × Nat :=
  let r := (List.range 64).foldl (md5Round block) st
  (add32 st.1 r.1, add32 st.2.1 r.2.1, add32 st.2.2.1 r.2.2.1,
   add32 st.2.2.2 r.2.2.2)

/-- `k` little-endian bytes of `n`. -/
def leBytes : Nat → Nat → List Nat
  | 0, _ => []
  | k + 1, n => n % 256 :: leBytes k (n / 256)

/-- MD5 padding: `0x80`, zeros to 56 mod 64, then the 64-bit little-endian
bit length. -/
def md5Pad (msg : List Nat) : List Nat :=
  msg ++ [128] ++ List.replicate ((119 - msg.length % 64) % 64) 0 ++
    leBytes 8 (msg.length * 8)

/-- The 16-byte MD5 digest of a byte list. -/
def md5Digest (msg : List Nat) : List Nat :=
  let p := md5Pad msg
  let st := (chunksF 64 p.length p).foldl md5Block
    (1732584193, 4023233417, 2562383102, 271733878)
  leBytes 4 st.1 ++ leBytes 4 st.2.1 ++ leBytes 4 st.2.2.1 ++
    leBytes 4 st.2.2.2

/-- Lowercase hexadecimal digit. -/
def hexChar (n : Nat) : Char := "0123456789abcdef".toList.getD n '0'

/-- Two lowercase hex characters of a byte. -/
def byteHex (b : Nat) : List Char := [hexChar (b / 16), hexChar (b % 16)]

/-- `hashlib.md5(msg).hexdigest()`. -/
def md5hex (msg : List Nat) : String :=
  String.mk ((md5Digest msg).map byteHex).flatten

/-- The framed body built by the slicing loop of `bin2python` plus its
`if not pylines` fallback (lines 43-56). -/
def frameBody (columns : Nat) (pfx sep b64 : List Nat) : List Nat :=
  let body := joinLines sep ((chunkSegs columns b64).map (mkLine pfx))
  if body = [] then mkLine pfx [] else body

/-- `bin2python(infile, columns, prefix, sep, compress)` from
`embedsrv.py` lines 32-57: slurps the bytes, records their count and MD5
hex digest, optionally bz2-compresses, base-64 encodes, slices the encoding
into `columns`-wide segments each framed as `prefix + b'b"' + seg + b'"'`
joined by `sep`, and falls back to the single line `prefix + b'b""'` when
nothing was emitted.  Returns `(pylines, data_size, data_md5)`. -/
def bin2python (data_raw : List Nat) (columns : Nat) (pfx sep : List Nat)
    (compress : Bool) : List Nat × Nat × String :=
  let data_size := data_raw.length
  let data_md5 := md5hex data_raw
  let data1 := if compress then bz2_compress data_raw else data_raw
  let data_b64 := b2a_base64 data1
  (frameBody columns pfx sep data_b64, data_size, data_md5)

/-- Reverses the framing of the generated body: splits on the newline
separator, strips the line prefix together with the two bytes of `b"` from
the front of each line and the closing `"` from its end, and concatenates
the payloads. -/
def stripFraming (pfx body : List Nat) : List Nat :=
  ((splitOnByte 10 body).map
    (fun line => (line.drop (pfx.length + 2)).dropLast)).flatten

/-- The decoding procedure of the round-trip claim: strip the framing,
base-64 decode, and bz2-decompress when compression was applied. -/
def decodeFramed (pfx : List Nat) (compress : Bool) (body : List Nat) :
    List Nat :=
  if compress then bz2_decompress (a2b_base64 (stripFraming pfx body))
  else a2b_base64 (stripFraming pfx body)

/-- The dirty-suffix literal `"-dirty"` used by `get_git_info`. -/
def dirtySuffix : List Char := ['-', 'd', 'i', 'r', 't', 'y']

/-- Lines 95-99 of `get_git_info`: if the describe output ends with the
dirty suffix, set `dirty` and cut `len(dirty_suffix)` characters off the
end (`describe[0:-len(dirty_suffix)]`); otherwise keep it and clear
`dirty`.  Returns `(describe, dirty)`. -/
def stripDirtySuffix (suf d : List Char) : List Char × Bool :=
  if suf.isSuffixOf d then (d.take (d.length - suf.length), true)
  else (d, false)

/-- The validation pattern of line 104, `re.fullmatch(r"^([a-h\d]{40})$",
info.hash, re.A)`: exactly 40 characters, each in `a`-`h` or an ASCII
digit. -/
def gitHashValid (s : List Char) : Bool :=
  s.length = 40 && s.all (fun c => ('a' ≤ c && c ≤ 'h') || ('0' ≤ c && c ≤ '9'))

/-- The pattern stated by the spec: exactly 40 lowercase hexadecimal
characters (`0-9a-f`). -/
def isLowerHex40 (s : List Char) : Bool :=
  s.length = 40 && s.all (fun c => ('a' ≤ c && c ≤ 'f') || ('0' ≤ c && c ≤ '9'))

/-- Lines 101-105 of `get_git_info`: accept the rev-parse output when it
matches the pattern, else raise `RuntimeError` (modelled by `none`). -/
def checkGitHash (s : List Char) : Option (List Char) :=
  if gitHashValid s then some s else none

/-- Lines 145-149 of `generate_python_script`: the text placed after
`GIT_COMMIT = ` — the literal `None` when the tree is not treated as a git
repository, else the quoted hash with a caution comment. -/
def gitCommitField (is_git_repo : Bool) (git_hash : String) : String :=
  if is_git_repo then
    "\"" ++ git_hash ++ "\"  # CAUTION: repo possibly dirty"
  else "None"

/-- The preamble written first by `generate_python_script` (lines 153-161),
as a function of the generating script's base name, the timestamp string
and the git data. -/
def scriptHeader (scriptName now_str : String) (is_git_repo : Bool)
    (git_hash : String) : String :=
  "# Copyright (c) Lexfo\n# SPDX-License-Identifier: BSD-3-Clause\n#\n# auto-generated by "
    ++ scriptName ++ "\n#\n\nGENERATED_AT = \"" ++ now_str ++
    ("\"\nGIT_COMMIT = " ++ gitCommitField is_git_repo git_hash ++ "\n")

/-- ASCII byte encoding of a generated string (`str.encode()`; all
generated text is ASCII). -/
def strBytes (s : String) : List Nat := s.toList.map Char.toNat

/-- The per-artifact header written in the loop of
`generate_python_script` (lines 170-176). -/
def artifactHeader (name baseName : String) (data_size : Nat)
    (data_md5 : String) : String :=
  "\n\n# " ++ baseName ++ "\n" ++ name ++ "_SIZE = " ++ toString data_size ++
    "  # uncompressed size\n" ++ name ++ "_MD5 = \"" ++ data_md5 ++
    "\"  # on uncompressed data\n" ++ name ++
    "_DATA = (  # compressed with bz2 and encoded in base64\n"

/-- One artifact's contribution to the output file: its header, the framed
body produced by `bin2python` with the source's default arguments, and the
closing `)\n` (bytes 41, 10). -/
def artifactBlock (name baseName : String) (data : List Nat) : List Nat :=
  strBytes (artifactHeader name baseName
      (bin2python data 70 [32, 32, 32, 32] [10] true).2.1
      (bin2python data 70 [32, 32, 32, 32] [10] true).2.2) ++
    (bin2python data 70 [32, 32, 32, 32] [10] true).1 ++ [41, 10]

/-- The write loop of `generate_python_script` (lines 166-180): inputs are
read one at a time inside the loop, after the output file has already been
opened (truncated) and the preamble written.  An input is `(name, base
name, some bytes)`, or `none` in the bytes position when reading it fails;
a failed read raises, leaving the bytes already written in the file.
Returns the final file content and whether the run completed. -/
def writeLoop (acc : List Nat) :
    List (String × String × Option (List Nat)) → List Nat × Bool
  | [] => (acc, true)
  | (_, _, none) :: _ => (acc, false)
  | (name, baseName, some data) :: rest =>
    writeLoop (acc ++ artifactBlock name baseName data) rest

/-- `generate_python_script` (lines 152-180) as the byte content written to
the output path: preamble first, then one block per input until the first
failed read. -/
def generate_python_script (header : String)
    (inputs : List (String × String × Option (List Nat))) : List Nat × Bool :=
  writeLoop (strBytes header) inputs

/-- The pre-flight gate of `main`: `check_dirs_and_files` runs before
`generate_python_script`, so when it dies nothing is written at all. -/
def mainWrites (preflight : Bool) (header : String)
    (inputs : List (String × String × Option (List Nat))) : List Nat × Bool :=
  if preflight then generate_python_script header inputs else ([], false)

/-- The context record produced by `parse_args` (lines 203-207). -/
structure ArgContext where
  ignoregit : Bool
  repodir : String
  outfile : String
deriving DecidableEq, Repr

/-- `parse_args` (lines 183-209): the parser accepts no positionals and no
options except `--help`/`-h`, which exits without returning, so a context
is produced exactly for the empty argument list; its `ignoregit` field is
hard-coded to `True` (line 204, the option itself is commented out). -/
def parse_args (args : List String) : Option ArgContext :=
  if args = [] then some ⟨true, "PROJECT_DIR", "OUTPUT_SCRIPT"⟩ else none

/-- Lines 123-129 of `check_dirs_and_files`: with `ignoregit` the tree is
treated as not a git repository even when it is one; otherwise a missing
`.git` directory is fatal (`none`), else the tree counts as a repository. -/
def resolveIsGitRepo (ignoregit has_git_dir : Bool) : Option Bool :=
  if ignoregit then some false
  else if !has_git_dir then none
  else some true

/-- Lines 217-218 of `main`: `get_git_info` is invoked exactly when
`context.is_git_repo` is set. -/
def mainInvokesGitInfo (is_git_repo : Bool) : Bool := is_git_repo

theorem sextetByte_mem (n : Nat) : sextetByte n ∈ b64table := by
  rcases Nat.lt_or_ge n 64 with h | h
  · exact (by decide : ∀ m, m < 64 → sextetByte m ∈ b64table) n h
  · unfold sextetByte
    rw [List.getD_eq_default]
    · decide
    · rw [(by rfl : b64table.length = 64)]; omega

theorem sextetByte_ne_61 (n : Nat) : sextetByte n ≠ 61 := by
  intro h
  have := sextetByte_mem n
  rw [h] at this
  exact absurd this (by decide)

theorem sextetByte_ne_10 (n : Nat) : sextetByte n ≠ 10 := by
  intro h
  have := sextetByte_mem n
  rw [h] at this
  exact absurd this (by decide)

theorem sextetVal_sextetByte : ∀ n, n < 64 → sextetVal (sextetByte n) = n := by decide

theorem a2b_pad2 (s0 s1 : Nat) :
    a2b_base64 [s0, s1, 61, 61] = [sextetVal s0 * 4 + sextetVal s1 / 16] := rfl

theorem a2b_pad1 (s0 s1 s2 : Nat) (h : s2 ≠ 61) :
    a2b_base64 [s0, s1, s2, 61] =
      [sextetVal s0 * 4 + sextetVal s1 / 16,
       sextetVal s1 % 16 * 16 + sextetVal s2 / 4] := by
  simp [a2b_base64, h]

theorem a2b_full (s0 s1 s2 s3 : Nat) (rest : List Nat) (h2 : s2 ≠ 61)
    (h3 : s3 ≠ 61) :
    a2b_base64 (s0 :: s1 :: s2 :: s3 :: rest) =
      (sextetVal s0 * 4 + sextetVal s1 / 16) ::
        (sextetVal s1 % 16 * 16 + sextetVal s2 / 4) ::
        (sextetVal s2 % 4 * 64 + sextetVal s3) :: a2b_base64 rest := by
  simp [a2b_base64, h2, h3]

theorem a2b_b2a (l : List Nat) (hl : ∀ x ∈ l, x < 256) :
    a2b_base64 (b2a_base64 l) = l := by
  induction l using b2a_base64.induct with
  | case1 => rfl
  | case2 a =>
    have ha : a < 256 := hl a (by simp)
    show a2b_base64 [sextetByte (a / 4), sextetByte (a % 4 * 16), 61, 61] = [a]
    rw [a2b_pad2, sextetVal_sextetByte _ (by omega),
      sextetVal_sextetByte _ (by omega)]
    simp only [List.cons.injEq, and_true]
    omega
  | case3 a b =>
    have ha : a < 256 := hl a (by simp)
    have hb : b < 256 := hl b (by simp)
    show a2b_base64 [sextetByte (a / 4), sextetByte (a % 4 * 16 + b / 16),
      sextetByte (b % 16 * 4), 61] = [a, b]
    rw [a2b_pad1 _ _ _ (sextetByte_ne_61 _), sextetVal_sextetByte _ (by omega),
      sextetVal_sextetByte _ (by omega), sextetVal_sextetByte _ (by omega)]
    simp only [List.cons.injEq, and_true]
    exact ⟨by omega, by omega⟩
  | case4 a b c rest ih =>
    have ha : a < 256 := hl a (by simp)
    have hb : b < 256 := hl b (by simp)
    have hc : c < 256 := hl c (by simp)
    show a2b_base64 (sextetByte (a / 4) :: sextetByte (a % 4 * 16 + b / 16) ::
      sextetByte (b % 16 * 4 + c / 64) :: sextetByte (c % 64) ::
      b2a_base64 rest) = a :: b :: c :: rest
    rw [a2b_full _ _ _ _ _ (sextetByte_ne_61 _) (sextetByte_ne_61 _),
      sextetVal_sextetByte _ (by omega), sextetVal_sextetByte _ (by omega),
      sextetVal_sextetByte _ (by omega), sextetVal_sextetByte _ (by omega),
      ih (by intro x hx; exact hl x (by simp [hx]))]
    simp only [List.cons.injEq, and_true]
    exact ⟨by omega, by omega, by omega⟩

theorem b2a_base64_mem (l : List Nat) :
    ∀ y ∈ b2a_base64 l, y ∈ b64table ∨ y = 61 := by
  induction l using b2a_base64.induct with
  | case1 => simp [b2a_base64]
  | case2 a =>
    simp only [b2a_base64, List.mem_cons]
    rintro y (rfl | rfl | rfl | rfl | h)
    · exact Or.inl (sextetByte_mem _)
    · exact Or.inl (sextetByte_mem _)
    · exact Or.inr rfl
    · exact Or.inr rfl
    · simp at h
  | case3 a b =>
    simp only [b2a_base64, List.mem_cons]
    rintro y (rfl | rfl | rfl | rfl | h)
    · exact Or.inl (sextetByte_mem _)
    · exact Or.inl (sextetByte_mem _)
    · exact Or.inl (sextetByte_mem _)
    · exact Or.inr rfl
    · simp at h
  | case4 a b c rest ih =>
    simp only [b2a_base64, List.mem_cons]
    rintro y (rfl | rfl | rfl | rfl | h)
    · exact Or.inl (sextetByte_mem _)
    · exact Or.inl (sextetByte_mem _)
    · exact Or.inl (sextetByte_mem _)
    · exact Or.inl (sextetByte_mem _)
    · exact ih y h

theorem b2a_base64_ne_10 (l : List Nat) : ∀ y ∈ b2a_base64 l, y ≠ 10 := by
  intro y hy
  rcases b2a_base64_mem l y hy with h | h
  · intro e; rw [e] at h; exact absurd h (by decide)
  · omega

theorem b2a_base64_ne_nil (l : List Nat) (h : l ≠ []) : b2a_base64 l ≠ [] := by
  rcases l with _ | ⟨a, _ | ⟨b, _ | ⟨c, rest⟩⟩⟩ <;> simp [b2a_base64] at h ⊢

theorem rleExpand_rleGo (xs : List Nat) : ∀ cnt cur,
    rleExpand (rleGo cnt cur xs) = List.replicate cnt cur ++ xs := by
  induction xs with
  | nil => intro cnt cur; simp [rleGo, rleExpand]
  | cons x xs ih =>
    intro cnt cur
    rw [rleGo]
    split
    · rename_i hcond
      rw [ih, List.replicate_succ' cnt cur]
      simp [hcond.1]
    · rw [rleExpand, ih]
      simp

theorem bz2_roundtrip (l : List Nat) : bz2_decompress (bz2_compress l) = l := by
  rcases l with _ | ⟨x, xs⟩
  · rfl
  · show rleExpand (rleGo 1 x xs) = x :: xs
    rw [rleExpand_rleGo]
    simp

theorem rleGo_lt (xs : List Nat) : ∀ cnt cur, cnt ≤ 255 → cur < 256 →
    (∀ x ∈ xs, x < 256) → ∀ y ∈ rleGo cnt cur xs, y < 256 := by
  induction xs with
  | nil =>
    intro cnt cur h1 h2 _ y hy
    simp [rleGo] at hy
    rcases hy with rfl | rfl <;> omega
  | cons x xs ih =>
    intro cnt cur h1 h2 h3 y hy
    rw [rleGo] at hy
    split at hy
    · rename_i hcond
      exact ih (cnt + 1) cur (by omega) h2 (fun z hz => h3 z (by simp [hz])) y hy
    · simp only [List.mem_cons] at hy
      rcases hy with rfl | rfl | hy
      · omega
      · omega
      · exact ih 1 x (by omega) (h3 x (by simp)) (fun z hz => h3 z (by simp [hz])) y hy

theorem bz2_compress_lt (l : List Nat) (h : ∀ x ∈ l, x < 256) :
    ∀ y ∈ bz2_compress l, y < 256 := by
  intro y hy
  rcases List.mem_append.mp hy with h4 | hp
  · have : y ∈ [66, 90, 104, 57] := h4
    simp at this
    omega
  · rcases l with _ | ⟨x, xs⟩
    · simp [rlePayload] at hp
    · exact rleGo_lt xs 1 x (by omega) (h x (by simp))
        (fun z hz => h z (by simp [hz])) y hp

theorem bz2_compress_ne_nil (l : List Nat) : bz2_compress l ≠ [] := by
  simp [bz2_compress, bz2Header]

theorem chunksF_flatten (columns : Nat) (hc : 0 < columns) :
    ∀ fuel l, l.length ≤ fuel → (chunksF columns fuel l).flatten = l := by
  intro fuel
  induction fuel with
  | zero =>
    intro l hl
    rcases l with _ | ⟨x, xs⟩
    · rfl
    · simp at hl
  | succ n ih =>
    intro l hl
    rcases l with _ | ⟨x, xs⟩
    · rfl
    · have hl' : xs.length + 1 ≤ n + 1 := by simpa using hl
      have hd : ((x :: xs).drop columns).length ≤ n := by
        simp only [List.length_drop, List.length_cons]
        omega
      rw [chunksF]
      simp only [List.flatten_cons]
      rw [ih _ hd]
      exact List.take_append_drop ..

theorem chunksF_ne_nil (columns fuel : Nat) (l : List Nat) (h : l ≠ [])
    (hf : 0 < fuel) : chunksF columns fuel l ≠ [] := by
  rcases l with _ | ⟨x, xs⟩
  · simp at h
  · rcases fuel with _ | n
    · omega
    · rw [chunksF]
      simp

theorem chunksF_mem (columns : Nat) (hc : 0 < columns) :
    ∀ fuel l, ∀ s ∈ chunksF columns fuel l, s ≠ [] ∧ s.length ≤ columns := by
  intro fuel
  induction fuel with
  | zero =>
    intro l s hs
    rcases l with _ | ⟨x, xs⟩ <;> simp [chunksF] at hs
  | succ n ih =>
    intro l s hs
    rcases l with _ | ⟨x, xs⟩
    · simp [chunksF] at hs
    · rw [chunksF] at hs
      rcases List.mem_cons.mp hs with rfl | hs
      · constructor
        · simp only [ne_eq, List.take_eq_nil_iff]
          push_neg
          constructor
          · omega
          · simp
        · simp only [List.length_take, List.length_cons]
          omega
      · exact ih _ s hs

theorem chunksF_dropLast (columns : Nat) (hc : 0 < columns) :
    ∀ fuel l, l.length ≤ fuel →
      ∀ s ∈ (chunksF columns fuel l).dropLast, s.length = columns := by
  intro fuel
  induction fuel with
  | zero =>
    intro l hl s hs
    rcases l with _ | ⟨x, xs⟩ <;> simp [chunksF] at hs
  | succ n ih =>
    intro l hl s hs
    rcases l with _ | ⟨x, xs⟩
    · simp [chunksF] at hs
    · have hl' : xs.length + 1 ≤ n + 1 := by simpa using hl
      have hd : ((x :: xs).drop columns).length ≤ n := by
        simp only [List.length_drop, List.length_cons]
        omega
      rw [chunksF] at hs
      by_cases hdrop : (x :: xs).drop columns = []
      · rw [hdrop] at hs
        simp [chunksF] at hs
      · have hne : chunksF columns n ((x :: xs).drop columns) ≠ [] := by
          apply chunksF_ne_nil columns n _ hdrop
          by_contra h0
          have : n = 0 := by omega
          rw [this] at hd
          exact hdrop (List.eq_nil_of_length_eq_zero (by omega))
        rw [List.dropLast_cons_of_ne_nil hne] at hs
        rcases List.mem_cons.mp hs with rfl | hs
        · have hlt : columns < xs.length + 1 := by
            by_contra hcon
            apply hdrop
            rw [List.drop_eq_nil_iff]
            simp only [List.length_cons]
            omega
          simp only [List.length_take, List.length_cons]
          omega
        · exact ih _ hd s hs

theorem joinLines_eq_intercalate (sep : List Nat) :
    ∀ ls : List (List Nat), joinLines sep ls = List.intercalate sep ls := by
  intro ls
  induction ls with
  | nil => simp [joinLines, List.intercalate]
  | cons l ls ih =>
    rcases ls with _ | ⟨l2, ls⟩
    · simp [joinLines, List.intercalate]
    · rw [joinLines, ih]
      simp [List.intercalate, List.intersperse]

theorem splitOnByte_not_mem (b : Nat) (l : List Nat) (h : b ∉ l) :
    splitOnByte b l = [l] := by
  induction l with
  | nil => rfl
  | cons x xs ih =>
    simp only [List.mem_cons, not_or] at h
    rw [splitOnByte, if_neg (fun e => h.1 e.symm), ih h.2]

theorem splitOnByte_append (b : Nat) (l rest : List Nat) (h : b ∉ l) :
    splitOnByte b (l ++ b :: rest) = l :: splitOnByte b rest := by
  induction l with
  | nil => simp [splitOnByte]
  | cons x xs ih =>
    simp only [List.mem_cons, not_or] at h
    rw [List.cons_append, splitOnByte, if_neg (fun e => h.1 e.symm), ih h.2]

theorem splitOnByte_joinLines (b : Nat) :
    ∀ ls : List (List Nat), ls ≠ [] → (∀ s ∈ ls, b ∉ s) →
      splitOnByte b (joinLines [b] ls) = ls := by
  intro ls
  induction ls with
  | nil => intro h; exact absurd rfl h
  | cons l ls ih =>
    intro _ hmem
    rcases ls with _ | ⟨l2, ls⟩
    · exact splitOnByte_not_mem b l (hmem l (by simp))
    · rw [joinLines]
      have he : l ++ [b] ++ joinLines [b] (l2 :: ls) =
          l ++ b :: joinLines [b] (l2 :: ls) := by simp
      rw [he, splitOnByte_append b l _ (hmem l (by simp)),
        ih (by simp) (fun s hs => hmem s (by simp [hs]))]

theorem strip_mkLine (pfx seg : List Nat) :
    ((mkLine pfx seg).drop (pfx.length + 2)).dropLast = seg := by
  have he : mkLine pfx seg = (pfx ++ [98, 34]) ++ (seg ++ [34]) := by
    simp [mkLine]
  rw [he]
  have hlen : (pfx ++ [98, 34]).length = pfx.length + 2 := by simp
  rw [← hlen, List.drop_left, List.dropLast_concat]

theorem mkLine_ne_nil (pfx seg : List Nat) : mkLine pfx seg ≠ [] := by
  simp [mkLine]

theorem mkLine_not_mem_10 (pfx seg : List Nat) (hpfx : 10 ∉ pfx)
    (hs : ∀ y ∈ seg, y ≠ 10) : 10 ∉ mkLine pfx seg := by
  intro h
  rw [mkLine] at h
  rcases List.mem_append.mp h with h | h
  · rcases List.mem_append.mp h with h | h
    · rcases List.mem_append.mp h with h | h
      · exact hpfx h
      · simp at h
    · exact hs 10 h rfl
  · simp at h

theorem joinLines_ne_nil (sep : List Nat) (l : List Nat) (ls : List (List Nat))
    (h : l ≠ []) : joinLines sep (l :: ls) ≠ [] := by
  rcases ls with _ | ⟨l2, ls⟩
  · simpa [joinLines] using h
  · rw [joinLines]
    simp [h]

theorem stripFraming_frame (columns : Nat) (hc : 0 < columns)
    (pfx b64 : List Nat) (hb : ∀ y ∈ b64, y ≠ 10) (hpfx : 10 ∉ pfx) :
    stripFraming pfx (frameBody columns pfx [10] b64) = b64 := by
  by_cases hne : b64 = []
  · subst hne
    have he : frameBody columns pfx [10] [] = mkLine pfx [] := rfl
    rw [he, stripFraming,
      splitOnByte_not_mem 10 _ (mkLine_not_mem_10 pfx [] hpfx (by simp))]
    simp [strip_mkLine]
  · have hlen : 0 < b64.length := List.length_pos.mpr hne
    have hsegs : chunkSegs columns b64 ≠ [] :=
      chunksF_ne_nil columns b64.length b64 hne hlen
    have hflat : (chunkSegs columns b64).flatten = b64 :=
      chunksF_flatten columns hc b64.length b64 (le_refl _)
    have hsmem : ∀ s ∈ chunkSegs columns b64, ∀ y ∈ s, y ≠ 10 := by
      intro s hs y hy
      apply hb
      rw [← hflat]
      exact List.mem_flatten.mpr ⟨s, hs, hy⟩
    have hbody : joinLines [10] ((chunkSegs columns b64).map (mkLine pfx)) ≠ [] := by
      rcases h2 : chunkSegs columns b64 with _ | ⟨s0, segs⟩
      · exact absurd h2 hsegs
      · rw [List.map_cons]
        exact joinLines_ne_nil _ _ _ (mkLine_ne_nil pfx s0)
    have hframe : frameBody columns pfx [10] b64 =
        joinLines [10] ((chunkSegs columns b64).map (mkLine pfx)) := by
      simp only [frameBody]
      rw [if_neg hbody]
    rw [hframe, stripFraming, splitOnByte_joinLines 10 _
      (by simpa using hsegs)
      (by
        intro s hs
        rcases List.mem_map.mp hs with ⟨seg, hseg, rfl⟩
        exact mkLine_not_mem_10 pfx seg hpfx (hsmem seg hseg))]
    rw [List.map_map]
    have hid : ∀ s ∈ chunkSegs columns b64,
        ((fun line => (line.drop (pfx.length + 2)).dropLast) ∘ mkLine pfx) s = s := by
      intro s _
      exact strip_mkLine pfx s
    rw [List.map_congr_left hid]
    simpa using hflat

/-- C2: for every byte sequence and any flags, `bin2python` returns
`data_size = len(A)` and `checksum_hex = md5(A)` computed over the
original, pre-compression bytes; both are identical whether or not
compression is applied. -/
theorem bin2python_size_checksum (A : List Nat) (columns : Nat)
    (pfx sep : List Nat) (compress : Bool) :
    (bin2python A columns pfx sep compress).2.1 = A.length ∧
    (bin2python A columns pfx sep compress).2.2 = md5hex A ∧
    (bin2python A columns pfx sep true).2 =
      (bin2python A columns pfx sep false).2 :=
  ⟨rfl, rfl, rfl⟩

set_option maxRecDepth 10000 in
/-- C3: the validation in `get_git_info` uses the character class `[a-h\d]`,
not lowercase hex `[0-9a-f]`: the 40-character string of `g`s is accepted
(no error raised) although it is not lowercase hexadecimal, contradicting
the 40-lowercase-hex validation the spec states. -/
theorem gitHash_fortyG_accepted :
    checkGitHash (List.replicate 40 'g') = some (List.replicate 40 'g') ∧
    isLowerHex40 (List.replicate 40 'g') = false := by
  constructor <;> decide

set_option maxRecDepth 10000 in
/-- C5 counterexample: with the source's default arguments (and in
particular `compress=True`, the default used by the generator), the framed
body for empty input is NOT the empty literal line `prefix + b'b""'`: the
compressed form of zero bytes is a non-empty stream, so the single emitted
line carries a non-empty base-64 payload. -/
theorem bin2python_empty_counterexample :
    (bin2python [] 70 [32, 32, 32, 32] [10] true).1 ≠
      [32, 32, 32, 32, 98, 34, 34] := by decide

set_option maxRecDepth 10000 in
/-- C5 (amended): for empty input the framed body is exactly one line and
never zero lines; with compression disabled that line is precisely
`prefix + b'b""'` (the empty bytes literal), while with compression enabled
(the default) the one line carries the base-64 encoding of the compressed
empty stream. -/
theorem bin2python_empty_amended :
    (∀ columns pfx sep,
      (bin2python [] columns pfx sep false).1 = pfx ++ [98, 34, 34]) ∧
    (bin2python [] 70 [32, 32, 32, 32] [10] true).1 =
      mkLine [32, 32, 32, 32] (b2a_base64 (bz2_compress [])) ∧
    (splitOnByte 10 (bin2python [] 70 [32, 32, 32, 32] [10] true).1).length
      = 1 := by
  refine ⟨?_, by decide, by decide⟩
  intro columns pfx sep
  have he : (bin2python [] columns pfx sep false).1 = mkLine pfx [] := rfl
  rw [he, mkLine]
  simp

set_option maxRecDepth 10000 in
/-- C6: on input `b"AB"` with compression disabled and `columns = 4`,
`bin2python` returns a single-line framed body whose payload is the
base-64 text `QUI=` (bytes 81, 85, 73, 61), size 2, and the MD5 hex digest
of `b"AB"`. -/
theorem bin2python_example_AB :
    bin2python [65, 66] 4 [32, 32, 32, 32] [10] false =
      ([32, 32, 32, 32, 98, 34, 81, 85, 73, 61, 34], 2,
       "b86fc6b051f63d73de262d4c34e3a0a9") ∧
    (splitOnByte 10
      (bin2python [65, 66] 4 [32, 32, 32, 32] [10] false).1).length = 1 := by
  constructor <;> decide

/-- C7: for every descriptor string, the dirty flag is exactly "descriptor
ends with the dirty suffix"; when set, the stored descriptor followed by
the suffix reconstitutes the original (so exactly the suffix was removed
from its end), and when clear, the descriptor is stored unchanged. -/
theorem stripDirtySuffix_spec (d : List Char) :
    ((stripDirtySuffix dirtySuffix d).2 = dirtySuffix.isSuffixOf d) ∧
    (stripDirtySuffix dirtySuffix d).1 ++
      (if (stripDirtySuffix dirtySuffix d).2 then dirtySuffix else []) = d := by
  by_cases h : dirtySuffix.isSuffixOf d
  · have hsuf : dirtySuffix <:+ d := by simpa [List.isSuffixOf] using h
    obtain ⟨t, rfl⟩ := hsuf
    have h2 : stripDirtySuffix dirtySuffix (t ++ dirtySuffix) = (t, true) := by
      rw [stripDirtySuffix, if_pos h]
      have hl : (t ++ dirtySuffix).length - dirtySuffix.length = t.length := by
        simp
      rw [hl, List.take_left]
    rw [h2]
    constructor
    · simp [h]
    · simp
  · have h' : dirtySuffix.isSuffixOf d = false := by
      rw [Bool.eq_false_iff]
      exact h
    have h2 : stripDirtySuffix dirtySuffix d = (d, false) := by
      rw [stripDirtySuffix, if_neg h]
    rw [h2, h']
    simp

/-- C10: every argument list accepted by `parse_args` yields a context with
`ignoregit` hard-coded to `True`; consequently `check_dirs_and_files`
resolves `is_git_repo` to `False`, `main` never invokes `get_git_info`, and
the generated `GIT_COMMIT` field is the literal `None` — even when a `.git`
directory exists. -/
theorem ignoregit_hardcoded (args : List String) (ctx : ArgContext)
    (h : parse_args args = some ctx) (has_git_dir : Bool) (ghash : String) :
    ctx.ignoregit = true ∧
    resolveIsGitRepo ctx.ignoregit has_git_dir = some false ∧
    mainInvokesGitInfo false = false ∧
    gitCommitField false ghash = "None" := by
  have hig : ctx.ignoregit = true := by
    rw [parse_args] at h
    split at h
    · injection h with h'
      subst h'
      rfl
    · exact Option.noConfusion h
  refine ⟨hig, ?_, rfl, rfl⟩
  rw [hig]
  rfl

/-- C10 witness: the empty argument list is accepted and the conclusion
holds for it with a `.git` directory present. -/
theorem ignoregit_hardcoded_witness :
    parse_args [] = some ⟨true, "PROJECT_DIR", "OUTPUT_SCRIPT"⟩ ∧
    ((ArgContext.mk true "PROJECT_DIR" "OUTPUT_SCRIPT").ignoregit = true ∧
     resolveIsGitRepo
       (ArgContext.mk true "PROJECT_DIR" "OUTPUT_SCRIPT").ignoregit true =
       some false ∧
     mainInvokesGitInfo false = false ∧
     gitCommitField false "x" = "None") :=
  ⟨rfl, ignoregit_hardcoded [] ⟨true, "PROJECT_DIR", "OUTPUT_SCRIPT"⟩ rfl
    true "x"⟩

theorem frameBody_spec (columns : Nat) (hc : 0 < columns)
    (pfx sep b64 : List Nat) (hb64ne : b64 ≠ []) :
    frameBody columns pfx sep b64 =
      List.intercalate sep
        ((chunkSegs columns b64).map (fun s => pfx ++ [98, 34] ++ s ++ [34])) ∧
    chunkSegs columns b64 ≠ [] ∧
    (chunkSegs columns b64).flatten = b64 ∧
    (∀ s ∈ (chunkSegs columns b64).dropLast, s.length = columns) ∧
    ∀ s ∈ chunkSegs columns b64, s ≠ [] ∧ s.length ≤ columns := by
  have hsegsne : chunkSegs columns b64 ≠ [] :=
    chunksF_ne_nil columns b64.length b64 hb64ne (List.length_pos.mpr hb64ne)
  refine ⟨?_, hsegsne,
    chunksF_flatten columns hc b64.length b64 (le_refl _),
    chunksF_dropLast columns hc b64.length b64 (le_refl _),
    chunksF_mem columns hc b64.length b64⟩
  have hbody : joinLines sep ((chunkSegs columns b64).map (mkLine pfx)) ≠ [] := by
    rcases h2 : chunkSegs columns b64 with _ | ⟨s0, segs⟩
    · exact absurd h2 hsegsne
    · rw [List.map_cons]
      exact joinLines_ne_nil _ _ _ (mkLine_ne_nil pfx s0)
  simp only [frameBody]
  rw [if_neg hbody, joinLines_eq_intercalate]
  rfl

/-- C4: for every non-empty input and positive column width, the framed
body is the `sep`-intercalation (single separator between consecutive
lines, none trailing) of lines of the form `prefix ++ b'b"' ++ segment ++
b'"'`, where the segments concatenate exactly to the base-64 text (which
contains no newline byte), every segment but the last has exactly
`columns` characters, and no segment is empty or longer than `columns`. -/
theorem bin2python_framing (A : List Nat) (hne : A ≠ []) (columns : Nat)
    (hc : 0 < columns) (pfx sep : List Nat) (compress : Bool) :
    ∃ segs : List (List Nat),
      (bin2python A columns pfx sep compress).1 =
        List.intercalate sep
          (segs.map (fun s => pfx ++ [98, 34] ++ s ++ [34])) ∧
      segs ≠ [] ∧
      segs.flatten = b2a_base64 (if compress then bz2_compress A else A) ∧
      (∀ y ∈ segs.flatten, y ≠ 10) ∧
      (∀ s ∈ segs.dropLast, s.length = columns) ∧
      ∀ s ∈ segs, s ≠ [] ∧ s.length ≤ columns := by
  have hd1ne : (if compress then bz2_compress A else A) ≠ [] := by
    cases compress
    · simpa using hne
    · simpa using bz2_compress_ne_nil A
  have hb64ne : b2a_base64 (if compress then bz2_compress A else A) ≠ [] :=
    b2a_base64_ne_nil _ hd1ne
  obtain ⟨h1, h2, h3, h4, h5⟩ := frameBody_spec columns hc pfx sep
    (b2a_base64 (if compress then bz2_compress A else A)) hb64ne
  refine ⟨chunkSegs columns (b2a_base64 (if compress then bz2_compress A else A)),
    h1, h2, h3, ?_, h4, h5⟩
  rw [h3]
  exact b2a_base64_ne_10 _

/-- C4 witness: instantiation at `A = [65, 66]`, `columns = 4`, the default
prefix and separator, compression disabled. -/
theorem bin2python_framing_witness :
    ([65, 66] : List Nat) ≠ [] ∧ 0 < 4 ∧
    ∃ segs : List (List Nat),
      (bin2python [65, 66] 4 [32, 32, 32, 32] [10] false).1 =
        List.intercalate [10]
          (segs.map (fun s => [32, 32, 32, 32] ++ [98, 34] ++ s ++ [34])) ∧
      segs ≠ [] ∧
      segs.flatten = b2a_base64 (if false then bz2_compress [65, 66] else [65, 66]) ∧
      (∀ y ∈ segs.flatten, y ≠ 10) ∧
      (∀ s ∈ segs.dropLast, s.length = 4) ∧
      ∀ s ∈ segs, s ≠ [] ∧ s.length ≤ 4 :=
  ⟨by decide, by decide,
    bin2python_framing [65, 66] (by decide) 4 (by decide) [32, 32, 32, 32]
      [10] false⟩

set_option maxHeartbeats 1000000 in
/-- C1: for every byte sequence `A`, stripping the framing of the body
produced by `bin2python(A)` (default arguments), base-64 decoding the
concatenated payload and bz2-decompressing when `compress` is set yields
exactly `A`, and the MD5 hex digest recomputed over the decoded bytes
equals the returned `checksum_hex`. -/
theorem bin2python_roundtrip (A : List Nat) (hA : ∀ x ∈ A, x < 256)
    (compress : Bool) :
    decodeFramed [32, 32, 32, 32] compress
        (bin2python A 70 [32, 32, 32, 32] [10] compress).1 = A ∧
    md5hex (decodeFramed [32, 32, 32, 32] compress
        (bin2python A 70 [32, 32, 32, 32] [10] compress).1) =
      (bin2python A 70 [32, 32, 32, 32] [10] compress).2.2 := by
  cases compress
  · have hstrip : stripFraming [32, 32, 32, 32]
        (bin2python A 70 [32, 32, 32, 32] [10] false).1 = b2a_base64 A := by
      have he : (bin2python A 70 [32, 32, 32, 32] [10] false).1 =
          frameBody 70 [32, 32, 32, 32] [10] (b2a_base64 A) := rfl
      rw [he]
      exact stripFraming_frame 70 (by omega) _ _ (b2a_base64_ne_10 A)
        (by decide)
    have hdec : decodeFramed [32, 32, 32, 32] false
        (bin2python A 70 [32, 32, 32, 32] [10] false).1 = A := by
      show a2b_base64 (stripFraming [32, 32, 32, 32]
        (bin2python A 70 [32, 32, 32, 32] [10] false).1) = A
      rw [hstrip]
      exact a2b_b2a A hA
    exact ⟨hdec, by rw [hdec]; rfl⟩
  · have hstrip : stripFraming [32, 32, 32, 32]
        (bin2python A 70 [32, 32, 32, 32] [10] true).1 =
        b2a_base64 (bz2_compress A) := by
      have he : (bin2python A 70 [32, 32, 32, 32] [10] true).1 =
          frameBody 70 [32, 32, 32, 32] [10] (b2a_base64 (bz2_compress A)) :=
        rfl
      rw [he]
      exact stripFraming_frame 70 (by omega) _ _
        (b2a_base64_ne_10 (bz2_compress A)) (by decide)
    have hdec : decodeFramed [32, 32, 32, 32] true
        (bin2python A 70 [32, 32, 32, 32] [10] true).1 = A := by
      show bz2_decompress (a2b_base64 (stripFraming [32, 32, 32, 32]
        (bin2python A 70 [32, 32, 32, 32] [10] true).1)) = A
      rw [hstrip, a2b_b2a _ (bz2_compress_lt A hA), bz2_roundtrip]
    exact ⟨hdec, by rw [hdec]; rfl⟩

set_option maxRecDepth 10000 in
/-- C1 witness: the round trip holds at the concrete input `b"AB"` with
compression enabled. -/
theorem bin2python_roundtrip_witness :
    (∀ x ∈ ([65, 66] : List Nat), x < 256) ∧
    (decodeFramed [32, 32, 32, 32] true
        (bin2python [65, 66] 70 [32, 32, 32, 32] [10] true).1 = [65, 66] ∧
     md5hex (decodeFramed [32, 32, 32, 32] true
        (bin2python [65, 66] 70 [32, 32, 32, 32] [10] true).1) =
       (bin2python [65, 66] 70 [32, 32, 32, 32] [10] true).2.2) :=
  ⟨by decide, bin2python_roundtrip [65, 66] (by decide) true⟩

/-- C8: when the tree is not treated as under source control, the revision
text placed in the preamble is the literal `None`: it equals `"None"`, is
never the empty string, and the preamble always ends with a
`GIT_COMMIT = None` line, so the field is written, never omitted. -/
theorem revision_field_none (scriptName now_str ghash : String) :
    gitCommitField false ghash = "None" ∧
    gitCommitField false ghash ≠ "" ∧
    "GIT_COMMIT = None\n".toList <:+
      (scriptHeader scriptName now_str false ghash).toList := by
  have h1 : gitCommitField false ghash = "None" := rfl
  refine ⟨h1, by rw [h1]; decide, ?_⟩
  have hT : ("\"\nGIT_COMMIT = " ++ gitCommitField false ghash ++ "\n") =
      "\"\nGIT_COMMIT = None\n" := rfl
  have hs : scriptHeader scriptName now_str false ghash =
      ("# Copyright (c) Lexfo\n# SPDX-License-Identifier: BSD-3-Clause\n#\n# auto-generated by "
        ++ scriptName ++ "\n#\n\nGENERATED_AT = \"" ++ now_str) ++
      "\"\nGIT_COMMIT = None\n" := by
    rw [scriptHeader, hT]
  rw [hs]
  have hsplit : ((("# Copyright (c) Lexfo\n# SPDX-License-Identifier: BSD-3-Clause\n#\n# auto-generated by "
      ++ scriptName ++ "\n#\n\nGENERATED_AT = \"" ++ now_str)) ++
      ("\"\nGIT_COMMIT = None\n" : String)).toList =
      ("# Copyright (c) Lexfo\n# SPDX-License-Identifier: BSD-3-Clause\n#\n# auto-generated by "
      ++ scriptName ++ "\n#\n\nGENERATED_AT = \"" ++ now_str).toList ++
      ("\"\nGIT_COMMIT = None\n" : String).toList := String.data_append ..
  rw [hsplit]
  have hsub : "GIT_COMMIT = None\n".toList <:+
      ("\"\nGIT_COMMIT = None\n" : String).toList := by decide
  obtain ⟨t, ht⟩ := hsub
  exact ⟨_ ++ t, by rw [List.append_assoc, ht]⟩

theorem writeLoop_stops (rest : List (String × String × Option (List Nat)))
    (name baseName : String) :
    ∀ (good : List (String × String × List Nat)) (acc : List Nat),
      writeLoop acc (good.map (fun t => (t.1, t.2.1, some t.2.2)) ++
          (name, baseName, none) :: rest) =
        (acc ++ (good.map (fun t => artifactBlock t.1 t.2.1 t.2.2)).flatten,
         false) := by
  intro good
  induction good with
  | nil => intro acc; simp [writeLoop]
  | cons g gs ih =>
    intro acc
    rcases g with ⟨n, bn, data⟩
    simp only [List.map_cons, List.cons_append]
    rw [writeLoop, ih]
    simp

set_option maxRecDepth 10000 in
/-- C9 counterexample: when reading the second input fails after the first
was encoded, the run aborts with failure, yet the output file already holds
the preamble and the first artifact's block — the output is not left
unchanged, so the write is not atomic with respect to errors. -/
theorem partial_output_counterexample :
    (generate_python_script "HDR"
      [("A", "a.exe", some [0]), ("B", "b.exe", none)]).2 = false ∧
    (generate_python_script "HDR"
      [("A", "a.exe", some [0]), ("B", "b.exe", none)]).1 ≠ [] := by
  constructor
  · rfl
  · decide

/-- C9 (amended): failures of the pre-flight check abort with nothing
written, but a read failure inside the generation loop aborts with the
preamble and every block encoded before the failure already written to the
(truncated) output file: the output is left partial, not unchanged. -/
theorem writeLoop_partial_amended (header : String)
    (good : List (String × String × List Nat))
    (rest : List (String × String × Option (List Nat)))
    (name baseName : String) :
    mainWrites false header
      (good.map (fun t => (t.1, t.2.1, some t.2.2)) ++
        (name, baseName, none) :: rest) = ([], false) ∧
    generate_python_script header
      (good.map (fun t => (t.1, t.2.1, some t.2.2)) ++
        (name, baseName, none) :: rest) =
      (strBytes header ++
        (good.map (fun t => artifactBlock t.1 t.2.1 t.2.2)).flatten,
       false) :=
  ⟨rfl, writeLoop_stops rest name baseName good (strBytes header)⟩
